import Mathlib

/-!
# Verification of the uv_setup tool updater

Shallow embedding of `src/main.rs`: a small utility that keeps PowerShell and
UV up to date by probing the installed version, fetching the latest GitHub
release, selecting the platform asset, downloading and extracting it.

External effects (process launch, HTTP, filesystem) are modelled by explicit
environment records whose fields record the outcome of each effectful step;
the control flow of `process_tool` is translated faithfully from the source.
-/

namespace UvSetup

/-! ## String helpers

Models of the Rust string operations used by the source:
`str::contains` / `str::ends_with` (substring / suffix tests) and
`str::to_lowercase` (restricted to its ASCII action, which is all the
asset names and markers in this program exercise). -/

/-- Does `s` start with `pat`? (model of a prefix test on char lists). -/
def startsWithList : List Char → List Char → Bool
  | _, [] => true
  | [], _ :: _ => false
  | c :: cs, d :: ds => c == d && startsWithList cs ds

/-- Does `s` contain `pat` as a contiguous substring? (Rust `str::contains`). -/
def containsList : List Char → List Char → Bool
  | [], pat => startsWithList [] pat
  | s@(_ :: cs), pat => startsWithList s pat || containsList cs pat

/-- Rust `str::contains` on strings. -/
def strContains (s pat : String) : Bool :=
  containsList s.data pat.data

/-- Rust `str::ends_with` on strings. -/
def strEndsWith (s pat : String) : Bool :=
  startsWithList s.data.reverse pat.data.reverse

/-- Rust `str::to_lowercase`, restricted to ASCII (`Char.toLower` lowers
exactly the ASCII uppercase letters, which is the Rust behaviour on the
ASCII asset names this program deals with). -/
def lowerStr (s : String) : String :=
  ⟨s.data.map Char.toLower⟩

/-- Split a char list on a separator character; the groups between the
separators, in order (the splitting done by Rust's `Path::components` and
by version parsing on `.`). -/
def splitOnChar (sep : Char) : List Char → List (List Char)
  | [] => [[]]
  | c :: cs =>
    match splitOnChar sep cs with
    | [] => [[]]
    | g :: gs => if c == sep then [] :: g :: gs else (c :: g) :: gs

/-! ## Semantic versions

Modelled from the spec: the `semver` crate used at `main.rs` lines 95 and 108
is an external dependency whose code is not under `src/`.  Spec §3 and §4.1
describe it: a parsed triple `(major, minor, patch[, optional pre-release])`
with standard semantic-versioning precedence, parse failure on anything not
conforming to the numeric grouping.  Build metadata is not modelled (no
claim and no input in this program involves a `+` suffix). -/

/-- A pre-release identifier: numeric identifiers compare numerically and
before alphanumeric ones; alphanumeric ones compare in ASCII order. -/
inductive PreId where
  | num (n : Nat)
  | str (s : List Char)
deriving DecidableEq, Repr

/-- A semantic version. -/
structure SemVer where
  major : Nat
  minor : Nat
  patch : Nat
  pre : List PreId
deriving DecidableEq, Repr

/-- Three-way comparison on `Nat`, written out so its properties are
directly provable. -/
def natCompare (a b : Nat) : Ordering :=
  if a < b then .lt else if b < a then .gt else .eq

/-- Lexicographic comparison of char lists by code point (ASCII order on
ASCII strings), shorter strict prefixes first. -/
def charListCompare : List Char → List Char → Ordering
  | [], [] => .eq
  | [], _ :: _ => .lt
  | _ :: _, [] => .gt
  | c :: cs, d :: ds =>
    match natCompare c.toNat d.toNat with
    | .eq => charListCompare cs ds
    | o => o

/-- Semver precedence on single pre-release identifiers. -/
def preIdCompare : PreId → PreId → Ordering
  | .num m, .num n => natCompare m n
  | .num _, .str _ => .lt
  | .str _, .num _ => .gt
  | .str s, .str t => charListCompare s t

/-- Lexicographic comparison of identifier lists, a strict prefix first. -/
def preListCompare : List PreId → List PreId → Ordering
  | [], [] => .eq
  | [], _ :: _ => .lt
  | _ :: _, [] => .gt
  | x :: xs, y :: ys =>
    match preIdCompare x y with
    | .eq => preListCompare xs ys
    | o => o

/-- Semver precedence on the pre-release part: a version without
pre-release identifiers has higher precedence than one with them. -/
def preCompare (a b : List PreId) : Ordering :=
  match a, b with
  | [], [] => .eq
  | [], _ :: _ => .gt
  | _ :: _, [] => .lt
  | _, _ => preListCompare a b

/-- Semver precedence: by major, then minor, then patch, then pre-release. -/
def semverCompare (a b : SemVer) : Ordering :=
  (natCompare a.major b.major).then
    ((natCompare a.minor b.minor).then
      ((natCompare a.patch b.patch).then (preCompare a.pre b.pre)))

/-- Rust `Ord::ge` as derived from `cmp` (`a >= b` iff `cmp` is not `Less`);
this is the `ver >= latest_version` test at `main.rs` line 114. -/
def semverGe (a b : SemVer) : Bool :=
  match semverCompare a b with
  | .lt => false
  | _ => true

/-! ### Version parsing -/

/-- The numeric value of a digit string (most significant first). -/
def digitsToNat (s : List Char) : Nat :=
  s.foldl (fun n c => n * 10 + (c.toNat - 48)) 0

/-- Parse a numeric version component: nonempty, all ASCII digits, and no
leading zero (semver rejects `01`). -/
def parseNumStrict (s : List Char) : Option Nat :=
  if s.isEmpty then none
  else if !s.all Char.isDigit then none
  else if 2 ≤ s.length ∧ s.head? = some '0' then none
  else some (digitsToNat s)

/-- Parse one pre-release identifier: nonempty, ASCII alphanumerics and
hyphens only; all-digit identifiers are numeric and must not have a leading
zero. -/
def parsePreId (s : List Char) : Option PreId :=
  if s.isEmpty then none
  else if !s.all (fun c => c.isAlphanum || c == '-') then none
  else if s.all Char.isDigit then
    match s with
    | '0' :: _ :: _ => none
    | l => some (.num (digitsToNat l))
  else some (.str s)

/-- Parse the dot-separated pre-release part (after the first `-`). -/
def parsePre (p : List Char) : Option (List PreId) :=
  (splitOnChar '.' p).mapM parsePreId

/-- Split a version string at the first `-`: the numeric core before it and,
when a `-` is present, the pre-release text after it. -/
def splitAtFirstDash (s : String) : List Char × Option (List Char) :=
  let core := s.data.takeWhile (fun c => c != '-')
  if core.length == s.data.length then (core, none)
  else (core, some (s.data.drop (core.length + 1)))

/-- `semver::Version::parse` (spec §4.1): the core must be exactly three
dot-separated numeric groups; an optional `-pre` part follows.  Anything
else is a parse error (`none`). -/
def parseVersion (s : String) : Option SemVer :=
  let (core, preStr) := splitAtFirstDash s
  match splitOnChar '.' core with
  | [a, b, c] =>
    match parseNumStrict a, parseNumStrict b, parseNumStrict c with
    | some ma, some mi, some pa =>
      match preStr with
      | none => some ⟨ma, mi, pa, []⟩
      | some p =>
        match parsePre p with
        | some ids => some ⟨ma, mi, pa, ids⟩
        | none => none
    | _, _, _ => none
  | _ => none

/-! ## Data model (`main.rs` lines 16-33) -/

/-- A downloadable release asset (`struct Asset`). -/
structure Asset where
  name : String
  browser_download_url : String
deriving DecidableEq, Repr

/-- The latest-release metadata fetched from the registry (`struct Release`). -/
structure Release where
  tag_name : String
  assets : List Asset
deriving DecidableEq, Repr

/-- A managed tool's static configuration (`struct Tool`). -/
structure Tool where
  name : String
  repo : String
  exe : String
  version_pattern : String
deriving DecidableEq, Repr

/-- `Tool::powershell` (`main.rs` lines 36-43). -/
def Tool.powershell : Tool :=
  { name := "PowerShell"
    repo := "PowerShell/PowerShell"
    exe := "pwsh.exe"
    version_pattern := "PowerShell ([\\d\\.]+)" }

/-- `Tool::uv` (`main.rs` lines 45-52). -/
def Tool.uv : Tool :=
  { name := "UV"
    repo := "astral-sh/uv"
    exe := "uv.exe"
    version_pattern := "uv ([\\d\\.]+)" }

/-- `Tool::matches_asset` (`main.rs` lines 54-64): the per-tool asset
predicate, a pure test on the lowercased asset name. -/
def Tool.matches_asset (t : Tool) (name : String) : Bool :=
  let name := lowerStr name
  if t.name == "PowerShell" then
    strContains name "win" && strContains name "x64" &&
      strEndsWith name ".zip" && !strContains name "symbols" &&
      !strContains name "arm"
  else if t.name == "UV" then
    strContains name "windows" && strContains name "x86_64" &&
      strEndsWith name ".zip"
  else false

/-! ## Installed-version probe (`main.rs` lines 81-100)

The probe launches `<exe> --version`, filters on exit status, applies the
version regex and parses the capture.  Process launch is an external
effect, modelled by `ProbeEnv`.  The regex itself is applied to the
captured stdout text by `regexCapture1` below. -/

/-- The outcome of `Command::output()` when the launch itself succeeded. -/
structure ProcOutput where
  statusSuccess : Bool
  stdout : String
deriving Repr

/-- Environment of the probe: whether the executable file exists
(`exe_path.exists()`), and the result of launching it
(`none` models `Command::output()` returning `Err`). -/
structure ProbeEnv where
  exeExists : Bool
  launch : Option ProcOutput
deriving Repr

/-- Both version patterns in the source have the shape
`<literal>([\d\.]+)`: a literal followed by one capture group of digits and
dots.  This models the `regex` crate's leftmost-first match for patterns of
that shape: scan for the first position where the literal matches and is
followed by at least one digit-or-dot character; the capture is the maximal
such run. -/
def findLitCapture (lit : List Char) : List Char → Option (List Char)
  | [] =>
    if startsWithList [] lit then
      match ([] : List Char).takeWhile (fun c => c.isDigit || c == '.') with
      | [] => none
      | run => some run
    else none
  | s@(_ :: cs) =>
    (if startsWithList s lit then
      match (s.drop lit.length).takeWhile (fun c => c.isDigit || c == '.') with
      | [] => none
      | run => some run
    else none).orElse (fun _ => findLitCapture lit cs)

/-- `Regex::new(pattern).captures(text)?.get(1)` for the version patterns of
this program: the pattern's literal part is everything before the `(` of
its single capture group. -/
def regexCapture1 (pattern text : String) : Option String :=
  (findLitCapture (pattern.data.takeWhile (fun c => c != '(')) text.data).map
    (fun run => ⟨run⟩)

/-- The installed-version probe (`main.rs` lines 82-100): `none` for a
missing executable, a failed launch, a non-zero exit status, a non-matching
stdout, or an unparsable capture. -/
def probeVersion (tool : Tool) (env : ProbeEnv) : Option SemVer :=
  if env.exeExists then
    (env.launch.filter (fun out => out.statusSuccess)).bind fun out =>
      (regexCapture1 tool.version_pattern out.stdout).bind fun cap =>
        parseVersion cap
  else none

/-! ## Archive extraction (`main.rs` lines 147-165)

Modelled from the spec (and the `zip` crate's documented behaviour, the
crate being an external dependency): `ZipEntry.enclosed_name` returns the
entry's path when, read as a relative path, its parent-traversal segments
never step above the archive root: no NUL byte, no absolute path, and the
running depth never goes negative.  Entries failing this are skipped
(`continue`, line 151). -/

/-- Depth check over path components: `..` pops one level and must never
underflow the root. -/
def enclCheck : List String → Nat → Bool
  | [], _ => true
  | c :: cs, depth =>
    if c == ".." then
      match depth with
      | 0 => false
      | d + 1 => enclCheck cs d
    else enclCheck cs (depth + 1)

/-- Path components of an entry name: split on `/`, dropping the empty
components and `.` components a path parse discards (`..` is kept:
`enclosed_name` returns the path as written, only checked). -/
def entryComponents (name : String) : List String :=
  ((splitOnChar '/' name.data).map (fun g => (⟨g⟩ : String))).filter
    (fun c => c != "" && c != ".")

/-- `ZipFile::enclosed_name`: `none` for names with a NUL byte, absolute
names, or names whose `..` segments would climb above the root; otherwise
the component list of the name. -/
def enclosedName (name : String) : Option (List String) :=
  if name.data.contains (Char.ofNat 0) then none
  else
    match name.data with
    | '/' :: _ => none
    | _ =>
      let comps := entryComponents name
      if enclCheck comps 0 then some comps else none

/-- Resolve `..` segments against the components already laid down (what
the filesystem does when the joined path is opened); `none` when a `..`
would escape past the given root. -/
def resolveComps (stack : List String) : List String → Option (List String)
  | [] => some stack.reverse
  | c :: cs =>
    if c == ".." then
      match stack with
      | [] => none
      | _ :: rest => resolveComps rest cs
    else resolveComps (c :: stack) cs

/-- One archive entry, with the outcomes of its effectful steps:
`readOk` models `archive.by_index(i)` succeeding (line 148), `ioOk` models
the filesystem operations for the entry (`create_dir_all` /
`File::create` / `io::copy`, lines 154-162) succeeding. -/
structure ZipEntry where
  name : String
  readOk : Bool
  ioOk : Bool
deriving Repr

/-- A filesystem effect of extraction: the target path is the target
directory's components followed by the entry's enclosed components. -/
inductive FsAction where
  | mkdir (path : List String)
  | write (path : List String)
deriving DecidableEq, Repr

/-- The path an action touches. -/
def FsAction.path : FsAction → List String
  | .mkdir p => p
  | .write p => p

/-- The extraction loop (`main.rs` lines 147-165): entries in archive
order; an entry with no enclosed name is skipped; a directory entry
(name ending in `/`) becomes `mkdir`, a file entry becomes `write`; the
first failing effect aborts the loop.  Returns the actions performed and
whether the loop completed. -/
def extractRun (dir : List String) : List ZipEntry → List FsAction × Bool
  | [] => ([], true)
  | e :: es =>
    if !e.readOk then ([], false)
    else
      match enclosedName e.name with
      | none => extractRun dir es
      | some comps =>
        if !e.ioOk then ([], false)
        else
          let act := if strEndsWith e.name "/" then FsAction.mkdir (dir ++ comps)
                     else FsAction.write (dir ++ comps)
          let (acts, ok) := extractRun dir es
          (act :: acts, ok)

/-! ## The pipeline (`process_tool`, `main.rs` lines 77-170) -/

/-- Environment of one `process_tool` run: the probe's effects, the
registry response (`none` models a failed `send()`/`.json()`), and the
outcomes of the download, archive-open, extraction and cleanup effects. -/
structure PipelineEnv where
  probe : ProbeEnv
  release : Option Release
  sendOk : Bool
  createArchiveOk : Bool
  writeAllOk : Bool
  openOk : Bool
  entries : List ZipEntry
  removeOk : Bool
deriving Repr

/-- How one `process_tool` run ended. -/
inductive Outcome where
  | fatalRelease
  | fatalParse
  | upToDate
  | fatalNoAsset
  | fatalDownload
  | fatalOpen
  | fatalExtract
  | fatalRemove
  | updated (asset : Asset)
deriving DecidableEq, Repr

/-- Observable result of one `process_tool` run: the outcome, whether the
asset body was downloaded onto disk, the selected asset, the extraction
actions performed, and whether the temporary archive file is still on disk
when the run ends. -/
structure RunResult where
  outcome : Outcome
  downloaded : Bool
  selected : Option Asset
  actions : List FsAction
  archiveOnDisk : Bool
deriving Repr

/-- Lines 123-169 of `main.rs`: asset selection, download, extraction and
cleanup — the part of `process_tool` after the up-to-date check. -/
def updatePhase (tool : Tool) (dir : List String) (env : PipelineEnv)
    (release : Release) : RunResult :=
  match release.assets.find? (fun a => tool.matches_asset a.name) with
  | none => ⟨.fatalNoAsset, false, none, [], false⟩
  | some asset =>
    if !env.sendOk then ⟨.fatalDownload, false, some asset, [], false⟩
    else if !env.createArchiveOk then ⟨.fatalDownload, false, some asset, [], false⟩
    else if !env.writeAllOk then ⟨.fatalDownload, true, some asset, [], true⟩
    else if !env.openOk then ⟨.fatalOpen, true, some asset, [], true⟩
    else
      let (acts, ok) := extractRun dir env.entries
      if !ok then ⟨.fatalExtract, true, some asset, acts, true⟩
      else if !env.removeOk then ⟨.fatalRemove, true, some asset, acts, true⟩
      else ⟨.updated asset, true, some asset, acts, false⟩

/-- `process_tool` (`main.rs` lines 77-170): probe the installed version,
fetch and parse the latest release, stop at `UpToDate` when the installed
version is `>=` the latest, otherwise run the update phase. -/
def process_tool (tool : Tool) (dir : List String) (env : PipelineEnv) :
    RunResult :=
  let current := probeVersion tool env.probe
  match env.release with
  | none => ⟨.fatalRelease, false, none, [], false⟩
  | some release =>
    match parseVersion ⟨release.tag_name.data.dropWhile (fun c => c == 'v')⟩ with
    | none => ⟨.fatalParse, false, none, [], false⟩
    | some latest =>
      match current with
      | some ver =>
        if semverGe ver latest then ⟨.upToDate, false, none, [], false⟩
        else updatePhase tool dir env release
      | none => updatePhase tool dir env release

/-- A concrete run environment in which the probe finds nothing, the
registry offers a matching asset, and every effect succeeds except the
final archive deletion. -/
def cleanupFailEnv : PipelineEnv where
  probe := ⟨false, none⟩
  release := some ⟨"v1.0.0", [⟨"powershell-1.0.0-win-x64.zip", "u"⟩]⟩
  sendOk := true
  createArchiveOk := true
  writeAllOk := true
  openOk := true
  entries := [⟨"pwsh.exe", true, true⟩]
  removeOk := false

/-- A concrete run environment in which every effect succeeds. -/
def cleanupOkEnv : PipelineEnv where
  probe := ⟨false, none⟩
  release := some ⟨"v1.0.0", [⟨"powershell-1.0.0-win-x64.zip", "u"⟩]⟩
  sendOk := true
  createArchiveOk := true
  writeAllOk := true
  openOk := true
  entries := [⟨"pwsh.exe", true, true⟩]
  removeOk := true

/-- A concrete run environment in which the probe finds an installed
version 7.4.1 and the registry reports tag `v7.4.1`. -/
def upToDateEnv : PipelineEnv where
  probe := ⟨true, some ⟨true, "PowerShell 7.4.1\n"⟩⟩
  release := some ⟨"v7.4.1", [⟨"powershell-7.4.1-win-x64.zip", "u"⟩]⟩
  sendOk := true
  createArchiveOk := true
  writeAllOk := true
  openOk := true
  entries := [⟨"pwsh.exe", true, true⟩]
  removeOk := true

/-- A concrete run environment whose release tag does not parse as a
version. -/
def badTagEnv : PipelineEnv where
  probe := ⟨false, none⟩
  release := some ⟨"bogus", []⟩
  sendOk := true
  createArchiveOk := true
  writeAllOk := true
  openOk := true
  entries := []
  removeOk := true

/-- A concrete run environment whose archive holds a normal entry next to a
parent-traversal entry. -/
def containEnv : PipelineEnv where
  probe := ⟨false, none⟩
  release := some ⟨"v1.0.0", [⟨"powershell-1.0.0-win-x64.zip", "u"⟩]⟩
  sendOk := true
  createArchiveOk := true
  writeAllOk := true
  openOk := true
  entries := [⟨"pwsh.exe", true, true⟩, ⟨"../../evil.txt", true, true⟩]
  removeOk := true

theorem natCompare_self (a : Nat) : natCompare a a = .eq := by
  simp [natCompare]

theorem natCompare_swap (a b : Nat) : natCompare a b = (natCompare b a).swap := by
  rcases Nat.lt_trichotomy a b with h | h | h
  · simp [natCompare, h, Nat.lt_asymm h, Ordering.swap]
  · subst h; simp [natCompare, Ordering.swap]
  · simp [natCompare, h, Nat.lt_asymm h, Ordering.swap]

theorem natCompare_eq {a b : Nat} : natCompare a b = .eq ↔ a = b := by
  unfold natCompare
  split_ifs with h1 h2 <;> simp <;> omega

theorem ordering_then_swap (o p : Ordering) : (o.then p).swap = o.swap.then p.swap := by
  cases o <;> rfl

theorem ordering_then_eq (o p : Ordering) : o.then p = .eq ↔ o = .eq ∧ p = .eq := by
  cases o <;> simp [Ordering.then]

theorem char_toNat_inj {a b : Char} (h : a.toNat = b.toNat) : a = b :=
  Char.ext (UInt32.eq_of_toBitVec_eq (BitVec.eq_of_toNat_eq h))

theorem charListCompare_self (s : List Char) : charListCompare s s = .eq := by
  induction s with
  | nil => rfl
  | cons c cs ih => simp [charListCompare, natCompare_self, ih]

theorem charListCompare_swap (s t : List Char) :
    charListCompare s t = (charListCompare t s).swap := by
  induction s generalizing t with
  | nil => cases t <;> rfl
  | cons c cs ih =>
    cases t with
    | nil => rfl
    | cons d ds =>
      simp only [charListCompare]
      rw [natCompare_swap c.toNat d.toNat]
      cases natCompare d.toNat c.toNat <;> simp [Ordering.swap, ih]

theorem charListCompare_eq {s t : List Char} :
    charListCompare s t = .eq ↔ s = t := by
  induction s generalizing t with
  | nil => cases t <;> simp [charListCompare]
  | cons c cs ih =>
    cases t with
    | nil => simp [charListCompare]
    | cons d ds =>
      simp only [charListCompare]
      rcases h : natCompare c.toNat d.toNat with _ | _ | _
      · simp only [List.cons.injEq]
        constructor
        · intro hx; exact absurd hx (by simp)
        · rintro ⟨rfl, rfl⟩; rw [natCompare_self] at h; exact absurd h (by simp)
      · have hcd : c = d := char_toNat_inj (natCompare_eq.mp h)
        subst hcd
        simp [ih]
      · simp only [List.cons.injEq]
        constructor
        · intro hx; exact absurd hx (by simp)
        · rintro ⟨rfl, rfl⟩; rw [natCompare_self] at h; exact absurd h (by simp)


theorem preIdCompare_self (x : PreId) : preIdCompare x x = .eq := by
  cases x <;> simp [preIdCompare, natCompare_self, charListCompare_self]

theorem preIdCompare_swap (x y : PreId) :
    preIdCompare x y = (preIdCompare y x).swap := by
  cases x <;> cases y
  · exact natCompare_swap _ _
  · rfl
  · rfl
  · exact charListCompare_swap _ _

theorem preIdCompare_eq {x y : PreId} : preIdCompare x y = .eq ↔ x = y := by
  cases x <;> cases y <;>
    simp [preIdCompare, natCompare_eq, charListCompare_eq]

theorem preListCompare_self (l : List PreId) : preListCompare l l = .eq := by
  induction l with
  | nil => rfl
  | cons x xs ih => simp [preListCompare, preIdCompare_self, ih]

theorem preListCompare_swap (l m : List PreId) :
    preListCompare l m = (preListCompare m l).swap := by
  induction l generalizing m with
  | nil => cases m <;> rfl
  | cons x xs ih =>
    cases m with
    | nil => rfl
    | cons y ys =>
      simp only [preListCompare]
      rw [preIdCompare_swap x y]
      cases preIdCompare y x <;> simp [Ordering.swap, ih]

theorem preListCompare_eq {l m : List PreId} :
    preListCompare l m = .eq ↔ l = m := by
  induction l generalizing m with
  | nil => cases m <;> simp [preListCompare]
  | cons x xs ih =>
    cases m with
    | nil => simp [preListCompare]
    | cons y ys =>
      simp only [preListCompare]
      rcases h : preIdCompare x y with _ | _ | _
      · simp only [List.cons.injEq]
        constructor
        · intro hx; exact absurd hx (by simp)
        · rintro ⟨rfl, rfl⟩; rw [preIdCompare_self] at h; exact absurd h (by simp)
      · have hxy : x = y := preIdCompare_eq.mp h
        subst hxy
        simp [ih]
      · simp only [List.cons.injEq]
        constructor
        · intro hx; exact absurd hx (by simp)
        · rintro ⟨rfl, rfl⟩; rw [preIdCompare_self] at h; exact absurd h (by simp)

theorem preCompare_self (l : List PreId) : preCompare l l = .eq := by
  cases l <;> simp [preCompare, preListCompare_self]

theorem preCompare_swap (l m : List PreId) :
    preCompare l m = (preCompare m l).swap := by
  cases l <;> cases m
  · rfl
  · rfl
  · rfl
  · exact preListCompare_swap _ _

theorem preCompare_eq {l m : List PreId} : preCompare l m = .eq ↔ l = m := by
  cases l <;> cases m <;> simp [preCompare, preListCompare_eq]

theorem semverCompare_self (a : SemVer) : semverCompare a a = .eq := by
  simp [semverCompare, natCompare_self, preCompare_self, Ordering.then]

theorem semverCompare_swap (a b : SemVer) :
    semverCompare a b = (semverCompare b a).swap := by
  simp only [semverCompare]
  rw [natCompare_swap a.major, natCompare_swap a.minor, natCompare_swap a.patch,
    preCompare_swap a.pre, ← ordering_then_swap, ← ordering_then_swap,
    ← ordering_then_swap]

theorem semverCompare_eq {a b : SemVer} : semverCompare a b = .eq ↔ a = b := by
  simp only [semverCompare, ordering_then_eq, natCompare_eq, preCompare_eq]
  constructor
  · rintro ⟨h1, h2, h3, h4⟩
    cases a; cases b; simp_all
  · rintro rfl; simp


theorem ordering_then_of_ne {o : Ordering} (p : Ordering) (h : o ≠ .eq) :
    o.then p = o := by
  cases o
  · rfl
  · exact absurd rfl h
  · rfl

/-- C9: the semver comparison used by the pipeline is a total order:
`compare a b = gt` iff `compare b a = lt`, `compare a a = eq`, two versions
compare equal only if all components match, and the order is lexicographic
by (major, minor, patch). -/
theorem semver_compare_total_order (a b : SemVer) :
    (semverCompare a b = .gt ↔ semverCompare b a = .lt) ∧
    semverCompare a a = .eq ∧
    (semverCompare a b = .eq ↔ a = b) ∧
    (a.major ≠ b.major → semverCompare a b = natCompare a.major b.major) ∧
    (a.major = b.major → a.minor ≠ b.minor →
      semverCompare a b = natCompare a.minor b.minor) ∧
    (a.major = b.major → a.minor = b.minor → a.patch ≠ b.patch →
      semverCompare a b = natCompare a.patch b.patch) := by
  refine ⟨?_, semverCompare_self a, semverCompare_eq, ?_, ?_, ?_⟩
  · rw [semverCompare_swap a b]
    cases semverCompare b a <;> simp [Ordering.swap]
  · intro h
    simp only [semverCompare]
    exact ordering_then_of_ne _ (fun hh => h (natCompare_eq.mp hh))
  · intro h1 h2
    simp only [semverCompare]
    rw [natCompare_eq.mpr h1]
    simp only [Ordering.then]
    exact ordering_then_of_ne _ (fun hh => h2 (natCompare_eq.mp hh))
  · intro h1 h2 h3
    simp only [semverCompare]
    rw [natCompare_eq.mpr h1, natCompare_eq.mpr h2]
    simp only [Ordering.then]
    exact ordering_then_of_ne _ (fun hh => h3 (natCompare_eq.mp hh))

theorem semver_compare_total_order_witness :
    (7 : Nat) ≠ 6 ∧
    semverCompare ⟨7, 4, 1, []⟩ ⟨6, 9, 9, []⟩ = natCompare 7 6 :=
  ⟨by decide,
   (semver_compare_total_order ⟨7, 4, 1, []⟩ ⟨6, 9, 9, []⟩).2.2.2.1 (by decide)⟩

/-- C5: the PowerShell asset predicate is case-insensitive (it depends only
on the lowercased name) and holds exactly when the lowercased name contains
"win" and "x64", ends with ".zip", and contains neither "symbols" nor
"arm". -/
theorem powershell_matches_asset_spec (name : String) :
    (∀ other : String, lowerStr other = lowerStr name →
      Tool.powershell.matches_asset other = Tool.powershell.matches_asset name) ∧
    (Tool.powershell.matches_asset name = true ↔
      (strContains (lowerStr name) "win" = true ∧
       strContains (lowerStr name) "x64" = true ∧
       strEndsWith (lowerStr name) ".zip" = true ∧
       strContains (lowerStr name) "symbols" = false ∧
       strContains (lowerStr name) "arm" = false)) := by
  constructor
  · intro other h
    simp only [Tool.matches_asset, Tool.powershell]
    rw [h]
  · simp only [Tool.matches_asset, Tool.powershell]
    simp [Bool.and_eq_true, Bool.not_eq_true', and_assoc]

theorem powershell_matches_asset_spec_witness :
    lowerStr "PowerShell-7.4.1-WIN-x64.ZIP" = lowerStr "powershell-7.4.1-win-x64.zip" ∧
    Tool.powershell.matches_asset "PowerShell-7.4.1-WIN-x64.ZIP" =
      Tool.powershell.matches_asset "powershell-7.4.1-win-x64.zip" :=
  ⟨by decide,
   (powershell_matches_asset_spec "powershell-7.4.1-win-x64.zip").1
     "PowerShell-7.4.1-WIN-x64.ZIP" (by decide)⟩

/-- C3: asset selection returns the first asset, in registry order, whose
name satisfies the tool predicate; when none matches, the update phase
fails with the not-found error; on the spec scenario 4 list the PowerShell
predicate selects exactly the first entry. -/
theorem asset_selection_first_match (tool : Tool) (assets : List Asset) :
    (∀ asset, assets.find? (fun a => tool.matches_asset a.name) = some asset →
      tool.matches_asset asset.name = true ∧
      ∃ l₁ l₂, assets = l₁ ++ asset :: l₂ ∧
        ∀ b ∈ l₁, tool.matches_asset b.name = false) ∧
    (assets.find? (fun a => tool.matches_asset a.name) = none ↔
      ∀ a ∈ assets, tool.matches_asset a.name = false) ∧
    (∀ dir env release, release.assets = assets →
      assets.find? (fun a => tool.matches_asset a.name) = none →
      (updatePhase tool dir env release).outcome = .fatalNoAsset) ∧
    (∀ u₁ u₂ u₃ : String,
      ([⟨"powershell-7.4.1-win-x64.zip", u₁⟩,
        ⟨"powershell-7.4.1-win-x64-symbols.zip", u₂⟩,
        ⟨"powershell-7.4.1-linux-x64.tar.gz", u₃⟩] : List Asset).find?
          (fun a => Tool.powershell.matches_asset a.name) =
        some ⟨"powershell-7.4.1-win-x64.zip", u₁⟩) := by
  refine ⟨?_, ?_, ?_, ?_⟩
  · intro asset h
    have := List.find?_eq_some.mp h
    refine ⟨this.1, ?_⟩
    obtain ⟨l₁, l₂, hsplit, hbefore⟩ := this.2
    exact ⟨l₁, l₂, hsplit, fun b hb => by simpa using hbefore b hb⟩
  · rw [List.find?_eq_none]
    constructor
    · intro h a ha; simpa using h a ha
    · intro h a ha; simp [h a ha]
  · intro dir env release hrel h
    simp only [updatePhase, hrel, h]
  · intro u₁ u₂ u₃
    simp [List.find?,
      show Tool.powershell.matches_asset "powershell-7.4.1-win-x64.zip" = true from by decide]

theorem asset_selection_first_match_witness :
    Tool.powershell.matches_asset "powershell-7.4.1-win-x64.zip" = true ∧
    ∃ l₁ l₂,
      ([⟨"powershell-7.4.1-win-x64.zip", "u"⟩] : List Asset) =
        l₁ ++ (⟨"powershell-7.4.1-win-x64.zip", "u"⟩ : Asset) :: l₂ ∧
      ∀ b ∈ l₁, Tool.powershell.matches_asset b.name = false :=
  (asset_selection_first_match Tool.powershell
    [⟨"powershell-7.4.1-win-x64.zip", "u"⟩]).1
    ⟨"powershell-7.4.1-win-x64.zip", "u"⟩ (by decide)

/-- C4: the installed-version probe returns `none` — never an error — for a
missing executable, a failed process launch, a non-zero exit status, a
stdout that the version pattern does not match, and a captured substring
that does not parse as a version. -/
theorem probe_total (tool : Tool) (env : ProbeEnv) :
    (env.exeExists = false → probeVersion tool env = none) ∧
    (env.launch = none → probeVersion tool env = none) ∧
    (∀ out, env.launch = some out → out.statusSuccess = false →
      probeVersion tool env = none) ∧
    (∀ out, env.launch = some out →
      regexCapture1 tool.version_pattern out.stdout = none →
      probeVersion tool env = none) ∧
    (∀ out cap, env.launch = some out →
      regexCapture1 tool.version_pattern out.stdout = some cap →
      parseVersion cap = none → probeVersion tool env = none) := by
  refine ⟨?_, ?_, ?_, ?_, ?_⟩
  · intro h; simp [probeVersion, h]
  · intro h; simp [probeVersion, h, Option.filter]
  · intro out h hs
    cases hex : env.exeExists <;>
      simp [probeVersion, h, hs, hex, Option.filter]
  · intro out h hc
    cases hex : env.exeExists <;>
      cases hs : out.statusSuccess <;>
        simp [probeVersion, h, hc, hs, hex, Option.filter]
  · intro out cap h hc hp
    cases hex : env.exeExists <;>
      cases hs : out.statusSuccess <;>
        simp [probeVersion, h, hc, hs, hex, hp, Option.filter]

theorem probe_total_witness :
    (ProbeEnv.mk false none).exeExists = false ∧
    probeVersion Tool.powershell ⟨false, none⟩ = none :=
  ⟨rfl, (probe_total Tool.powershell ⟨false, none⟩).1 rfl⟩


theorem updatePhase_outcome_ne_upToDate (tool : Tool) (dir : List String)
    (env : PipelineEnv) (release : Release) :
    (updatePhase tool dir env release).outcome ≠ .upToDate := by
  unfold updatePhase
  rcases h : release.assets.find? (fun a => tool.matches_asset a.name) with _ | asset
  · simp only [h]
    simp
  · simp only [h]
    split_ifs <;> simp

theorem updatePhase_selected (tool : Tool) (dir : List String)
    (env : PipelineEnv) (release : Release) :
    (updatePhase tool dir env release).selected =
      release.assets.find? (fun a => tool.matches_asset a.name) := by
  unfold updatePhase
  rcases h : release.assets.find? (fun a => tool.matches_asset a.name) with _ | asset
  · simp only [h]
  · simp only [h]
    split_ifs <;> rfl

/-- C2: when the probe yields a version `ver` and the latest release parses
to `latest`, `ver >= latest` ends the pipeline successfully as UpToDate
with no asset selection, no download and no extraction; the download is
performed only when `latest` is strictly greater. -/
theorem up_to_date_no_download (tool : Tool) (dir : List String)
    (env : PipelineEnv) (ver latest : SemVer) (release : Release)
    (hprobe : probeVersion tool env.probe = some ver)
    (hrel : env.release = some release)
    (hparse : parseVersion ⟨release.tag_name.data.dropWhile (fun c => c == 'v')⟩ =
      some latest) :
    (semverGe ver latest = true →
      process_tool tool dir env = ⟨.upToDate, false, none, [], false⟩) ∧
    ((process_tool tool dir env).downloaded = true →
      semverCompare latest ver = .gt) := by
  constructor
  · intro hge
    simp [process_tool, hprobe, hrel, hparse, hge]
  · intro hdl
    by_cases hge : semverGe ver latest = true
    · simp [process_tool, hprobe, hrel, hparse, hge] at hdl
    · have hlt : semverCompare ver latest = .lt := by
        rcases h : semverCompare ver latest with _ | _ | _
        · rfl
        · exact absurd (by simp [semverGe, h]) hge
        · exact absurd (by simp [semverGe, h]) hge
      rw [semverCompare_swap latest ver, hlt]
      rfl

theorem up_to_date_no_download_witness :
    semverGe ⟨7, 4, 1, []⟩ ⟨7, 4, 1, []⟩ = true ∧
    process_tool Tool.powershell ["pwsh"] upToDateEnv =
      ⟨.upToDate, false, none, [], false⟩ :=
  ⟨by decide,
   (up_to_date_no_download Tool.powershell ["pwsh"] upToDateEnv
     ⟨7, 4, 1, []⟩ ⟨7, 4, 1, []⟩ ⟨"v7.4.1", [⟨"powershell-7.4.1-win-x64.zip", "u"⟩]⟩
     (by decide) rfl (by decide)).1 (by decide)⟩

/-- C8: when the probe returns `none`, the pipeline never ends UpToDate: it
runs the update phase, performs asset selection, and — when every
downstream effect succeeds — downloads and extracts the selected asset. -/
theorem probe_none_always_updates (tool : Tool) (dir : List String)
    (env : PipelineEnv) (release : Release) (latest : SemVer)
    (hprobe : probeVersion tool env.probe = none)
    (hrel : env.release = some release)
    (hparse : parseVersion ⟨release.tag_name.data.dropWhile (fun c => c == 'v')⟩ =
      some latest) :
    process_tool tool dir env = updatePhase tool dir env release ∧
    (process_tool tool dir env).outcome ≠ .upToDate ∧
    (process_tool tool dir env).selected =
      release.assets.find? (fun a => tool.matches_asset a.name) ∧
    (∀ asset, release.assets.find? (fun a => tool.matches_asset a.name) = some asset →
      env.sendOk = true → env.createArchiveOk = true → env.writeAllOk = true →
      env.openOk = true → (extractRun dir env.entries).2 = true →
      env.removeOk = true →
      (process_tool tool dir env).outcome = .updated asset ∧
      (process_tool tool dir env).downloaded = true) := by
  have hpt : process_tool tool dir env = updatePhase tool dir env release := by
    simp [process_tool, hprobe, hrel, hparse]
  refine ⟨hpt, ?_, ?_, ?_⟩
  · rw [hpt]; exact updatePhase_outcome_ne_upToDate tool dir env release
  · rw [hpt]; exact updatePhase_selected tool dir env release
  · intro asset hsel hsend hcreate hwrite hopen hexok hremove
    rw [hpt]
    rcases hex : extractRun dir env.entries with ⟨acts, ok⟩
    rw [hex] at hexok
    simp only at hexok
    subst hexok
    simp [updatePhase, hsel, hsend, hcreate, hwrite, hopen, hremove, hex]

theorem probe_none_always_updates_witness :
    probeVersion Tool.powershell cleanupOkEnv.probe = none ∧
    (process_tool Tool.powershell ["pwsh"] cleanupOkEnv).outcome ≠ .upToDate :=
  ⟨rfl,
   (probe_none_always_updates Tool.powershell ["pwsh"] cleanupOkEnv
     ⟨"v1.0.0", [⟨"powershell-1.0.0-win-x64.zip", "u"⟩]⟩ ⟨1, 0, 0, []⟩
     rfl rfl (by decide)).2.1⟩

/-- C6 (counterexample to the claim as stated): a run in which extraction
completes but the final `remove_file` fails does not return successfully
and leaves the archive on disk. -/
theorem archive_cleanup_counterexample :
    (extractRun ["pwsh"] cleanupFailEnv.entries).2 = true ∧
    (process_tool Tool.powershell ["pwsh"] cleanupFailEnv).outcome =
      .fatalRemove ∧
    (process_tool Tool.powershell ["pwsh"] cleanupFailEnv).archiveOnDisk =
      true := by
  decide

/-- C6 (amended): once a matching asset is selected and the download
succeeds, the archive is off the disk at the end of the run exactly when
archive opening, every extraction step and the final deletion all succeed —
equivalently, exactly on the runs that end as `updated`; any failure of
opening, extraction or deletion leaves the archive on disk. -/
theorem archive_cleanup_policy (tool : Tool) (dir : List String)
    (env : PipelineEnv) (release : Release) (asset : Asset)
    (hsel : release.assets.find? (fun a => tool.matches_asset a.name) = some asset)
    (hsend : env.sendOk = true) (hcreate : env.createArchiveOk = true)
    (hwrite : env.writeAllOk = true) :
    ((updatePhase tool dir env release).archiveOnDisk = false ↔
      (env.openOk = true ∧ (extractRun dir env.entries).2 = true ∧
        env.removeOk = true)) ∧
    ((updatePhase tool dir env release).outcome = .updated asset ↔
      (env.openOk = true ∧ (extractRun dir env.entries).2 = true ∧
        env.removeOk = true)) := by
  rcases hex : extractRun dir env.entries with ⟨acts, ok⟩
  cases hopen : env.openOk <;> cases hok : ok <;> cases hrem : env.removeOk <;>
    simp_all [updatePhase, hsel, hsend, hcreate, hwrite, hex]

theorem archive_cleanup_policy_witness :
    (cleanupOkEnv.release.getD ⟨"", []⟩).assets.find?
        (fun a => Tool.powershell.matches_asset a.name) =
      some ⟨"powershell-1.0.0-win-x64.zip", "u"⟩ ∧
    (updatePhase Tool.powershell ["pwsh"] cleanupOkEnv
        ⟨"v1.0.0", [⟨"powershell-1.0.0-win-x64.zip", "u"⟩]⟩).outcome =
      .updated ⟨"powershell-1.0.0-win-x64.zip", "u"⟩ :=
  ⟨by decide,
   (archive_cleanup_policy Tool.powershell ["pwsh"] cleanupOkEnv
     ⟨"v1.0.0", [⟨"powershell-1.0.0-win-x64.zip", "u"⟩]⟩
     ⟨"powershell-1.0.0-win-x64.zip", "u"⟩
     (by decide) rfl rfl rfl).2.mpr ⟨rfl, by decide, rfl⟩⟩


theorem char_isDigit_toNat {c : Char} (h : c.isDigit = true) :
    48 ≤ c.toNat ∧ c.toNat ≤ 57 := by
  simp only [Char.isDigit, Bool.and_eq_true, decide_eq_true_eq] at h
  exact ⟨h.1, h.2⟩

theorem digitsToNat_foldl_pos :
    ∀ (l : List Char) (n : Nat), 1 ≤ n →
      1 ≤ l.foldl (fun n c => n * 10 + (c.toNat - 48)) n := by
  intro l
  induction l with
  | nil => intro n hn; exact hn
  | cons c cs ih =>
    intro n hn
    have hstep : 1 ≤ n * 10 + (c.toNat - 48) := by omega
    exact ih _ hstep

theorem parseNumStrict_zero {l : List Char} (h : parseNumStrict l = some 0) :
    l = ['0'] := by
  unfold parseNumStrict at h
  split_ifs at h with h1 h2 h3
  injection h with h0
  have hall : l.all Char.isDigit = true := by simpa using h2
  cases l with
  | nil => exact absurd rfl h1
  | cons d rest =>
    simp only [List.all_cons, Bool.and_eq_true] at hall
    obtain ⟨hd, hrest⟩ := hall
    have hd48 := char_isDigit_toNat hd
    simp only [digitsToNat, List.foldl_cons, Nat.zero_mul, Nat.zero_add] at h0
    cases rest with
    | nil =>
      simp only [List.foldl_nil] at h0
      have h48 : d.toNat = 48 := by omega
      have : d = '0' := char_toNat_inj (h48.trans (by decide : (48 : Nat) = '0'.toNat))
      rw [this]
    | cons e rest2 =>
      push_neg at h3
      have hne : d ≠ '0' := by
        have := h3 (by simp only [List.length_cons]; omega)
        simpa using this
      have hd49 : 49 ≤ d.toNat := by
        rcases Nat.lt_or_ge d.toNat 49 with hlt | hge
        · have h48 : d.toNat = 48 := by omega
          exact absurd (char_toNat_inj (h48.trans (by decide : (48 : Nat) = '0'.toNat))) hne
        · exact hge
      have := digitsToNat_foldl_pos (e :: rest2) (d.toNat - 48) (by omega)
      omega

theorem parseVersion_inv {s : String} {v : SemVer}
    (h : parseVersion s = some v) :
    ∃ a b c, splitOnChar '.' (splitAtFirstDash s).1 = [a, b, c] ∧
      parseNumStrict a = some v.major ∧ parseNumStrict b = some v.minor ∧
      parseNumStrict c = some v.patch := by
  unfold parseVersion at h
  rcases hsp : splitAtFirstDash s with ⟨core, preStr⟩
  rw [hsp] at h
  simp only at h
  rcases hsplit : splitOnChar '.' core with _ | ⟨a, _ | ⟨b, _ | ⟨c, _ | ⟨d, rest⟩⟩⟩⟩ <;>
      rw [hsplit] at h
  · exact absurd h (by simp)
  · exact absurd h (by simp)
  · exact absurd h (by simp)
  · dsimp only at h
    rcases ha : parseNumStrict a with _ | ma <;> rw [ha] at h
    · exact absurd h (by simp)
    rcases hb : parseNumStrict b with _ | mi <;> rw [hb] at h
    · exact absurd h (by simp)
    rcases hc : parseNumStrict c with _ | pa <;> rw [hc] at h
    · exact absurd h (by simp)
    dsimp only at h
    rcases preStr with _ | p
    · dsimp only at h
      simp only [Option.some.injEq] at h
      subst h
      exact ⟨a, b, c, rfl, ha, hb, hc⟩
    · dsimp only at h
      rcases hpre : parsePre p with _ | ids <;> rw [hpre] at h
      · exact absurd h (by simp)
      · simp only [Option.some.injEq] at h
        subst h
        exact ⟨a, b, c, rfl, ha, hb, hc⟩
  · exact absurd h (by simp)


/-- C7: version parsing rejects malformed strings rather than defaulting:
a successful parse means the numeric core was exactly three strict numeric
dot-groups whose values are the parsed components; parsing to `0.0.0`
means the core was literally `0.0.0`; concrete malformed strings are
rejected; and in the pipeline an unparsable release tag (after stripping
the leading `v` marker) ends the run with a fatal parse failure, never a
default version. -/
theorem version_parse_strict :
    (∀ s v, parseVersion s = some v →
      ∃ a b c, splitOnChar '.' (splitAtFirstDash s).1 = [a, b, c] ∧
        parseNumStrict a = some v.major ∧ parseNumStrict b = some v.minor ∧
        parseNumStrict c = some v.patch) ∧
    (∀ s, parseVersion s = some ⟨0, 0, 0, []⟩ →
      splitOnChar '.' (splitAtFirstDash s).1 = [['0'], ['0'], ['0']]) ∧
    (parseVersion "" = none ∧ parseVersion "abc" = none ∧
      parseVersion "7.4" = none ∧ parseVersion "1.2.3.4" = none ∧
      parseVersion "01.2.3" = none ∧ parseVersion "7.4.x" = none) ∧
    (∀ tool dir env release, env.release = some release →
      parseVersion ⟨release.tag_name.data.dropWhile (fun c => c == 'v')⟩ = none →
      (process_tool tool dir env).outcome = .fatalParse) := by
  refine ⟨?_, ?_, ?_, ?_⟩
  · intro s v h
    exact parseVersion_inv h
  · intro s h
    obtain ⟨a, b, c, hsplit, ha, hb, hc⟩ := parseVersion_inv h
    rw [hsplit, parseNumStrict_zero ha, parseNumStrict_zero hb,
      parseNumStrict_zero hc]
  · exact ⟨by decide, by decide, by decide, by decide, by decide, by decide⟩
  · intro tool dir env release hrel hparse
    simp [process_tool, hrel, hparse]

theorem version_parse_strict_witness :
    parseVersion "1.2.3" = some ⟨1, 2, 3, []⟩ ∧
    (∃ a b c, splitOnChar '.' (splitAtFirstDash "1.2.3").1 = [a, b, c] ∧
      parseNumStrict a = some (SemVer.mk 1 2 3 []).major ∧
      parseNumStrict b = some (SemVer.mk 1 2 3 []).minor ∧
      parseNumStrict c = some (SemVer.mk 1 2 3 []).patch) ∧
    badTagEnv.release = some ⟨"bogus", []⟩ ∧
    (process_tool Tool.powershell [] badTagEnv).outcome = .fatalParse :=
  ⟨by decide,
   version_parse_strict.1 "1.2.3" ⟨1, 2, 3, []⟩ (by decide),
   rfl,
   version_parse_strict.2.2.2 Tool.powershell [] badTagEnv ⟨"bogus", []⟩ rfl
     (by decide)⟩

theorem enclosedName_check {name : String} {comps : List String}
    (h : enclosedName name = some comps) : enclCheck comps 0 = true := by
  unfold enclosedName at h
  split_ifs at h with h1
  split at h
  · exact absurd h (by simp)
  · dsimp only at h
    split_ifs at h with h2
    injection h with h
    subst h
    exact h2

theorem enclCheck_resolve :
    ∀ (comps stack : List String), enclCheck comps stack.length = true →
      ∃ r, resolveComps stack comps = some r := by
  intro comps
  induction comps with
  | nil => intro stack _; exact ⟨stack.reverse, rfl⟩
  | cons c cs ih =>
    intro stack h
    unfold enclCheck at h
    by_cases hc : c == ".."
    · rw [if_pos hc] at h
      cases stack with
      | nil =>
        simp only [List.length_nil] at h
        exact absurd h (by simp)
      | cons s rest =>
        simp only [List.length_cons] at h
        obtain ⟨r, hr⟩ := ih rest h
        refine ⟨r, ?_⟩
        unfold resolveComps
        rw [if_pos hc]
        exact hr
    · rw [if_neg hc] at h
      obtain ⟨r, hr⟩ := ih (c :: stack) (by simpa using h)
      refine ⟨r, ?_⟩
      unfold resolveComps
      rw [if_neg hc]
      exact hr

theorem resolveComps_append :
    ∀ (comps stack r ext : List String),
      resolveComps stack comps = some r →
      resolveComps (stack ++ ext) comps = some (ext.reverse ++ r) := by
  intro comps
  induction comps with
  | nil =>
    intro stack r ext h
    unfold resolveComps at h ⊢
    injection h with h
    subst h
    rw [List.reverse_append]
  | cons c cs ih =>
    intro stack r ext h
    unfold resolveComps at h ⊢
    by_cases hc : c == ".."
    · rw [if_pos hc] at h ⊢
      cases stack with
      | nil => exact absurd h (by simp)
      | cons s rest => exact ih (rest) r ext h
    · rw [if_neg hc] at h ⊢
      exact ih (c :: stack) r ext h

theorem extractRun_actions_enclosed (dir : List String) :
    ∀ (es : List ZipEntry) (a : FsAction), a ∈ (extractRun dir es).1 →
      ∃ comps, a.path = dir ++ comps ∧ enclCheck comps 0 = true := by
  intro es
  induction es with
  | nil => intro a ha; simp [extractRun] at ha
  | cons e es ih =>
    intro a ha
    unfold extractRun at ha
    cases hr : e.readOk with
    | false => rw [hr] at ha; simp at ha
    | true =>
      rw [hr] at ha
      simp only [Bool.not_true] at ha
      rcases hn : enclosedName e.name with _ | comps <;> rw [hn] at ha
      · exact ih a ha
      · cases hio : e.ioOk with
        | false => rw [hio] at ha; simp at ha
        | true =>
          rw [hio] at ha
          simp only [Bool.not_true] at ha
          try dsimp only at ha
          rcases List.mem_cons.mp ha with hhd | htl
          · refine ⟨comps, ?_, enclosedName_check hn⟩
            subst hhd
            by_cases hslash : strEndsWith e.name "/" = true
            · simp [hslash, FsAction.path]
            · simp [hslash, FsAction.path]
          · exact ih a htl

theorem mem_actions_updatePhase {tool : Tool} {dir : List String}
    {env : PipelineEnv} {release : Release} {a : FsAction}
    (ha : a ∈ (updatePhase tool dir env release).actions) :
    a ∈ (extractRun dir env.entries).1 := by
  unfold updatePhase at ha
  rcases h : release.assets.find? (fun x => tool.matches_asset x.name) with _ | asset <;>
    rw [h] at ha
  · simp at ha
  · cases hs : env.sendOk <;> simp only [hs, Bool.not_false, Bool.not_true] at ha
    · simp at ha
    · cases hc : env.createArchiveOk <;>
        simp only [hc, Bool.not_false, Bool.not_true] at ha
      · simp at ha
      · cases hw : env.writeAllOk <;>
          simp only [hw, Bool.not_false, Bool.not_true] at ha
        · simp at ha
        · cases ho : env.openOk <;>
            simp only [ho, Bool.not_false, Bool.not_true] at ha
          · simp at ha
          · cases hex : (extractRun dir env.entries).2 <;> simp only [hex] at ha
            · exact ha
            · cases hrm : env.removeOk <;>
                simp only [hrm, Bool.not_false, Bool.not_true] at ha
              · exact ha
              · exact ha


theorem mem_actions_process_tool {tool : Tool} {dir : List String}
    {env : PipelineEnv} {a : FsAction}
    (ha : a ∈ (process_tool tool dir env).actions) :
    a ∈ (extractRun dir env.entries).1 := by
  unfold process_tool at ha
  rcases hrel : env.release with _ | release <;> rw [hrel] at ha
  · simp at ha
  · try dsimp only at ha
    rcases hparse : parseVersion ⟨release.tag_name.data.dropWhile (fun c => c == 'v')⟩
        with _ | latest <;> rw [hparse] at ha
    · simp at ha
    · try dsimp only at ha
      rcases hprobe : probeVersion tool env.probe with _ | ver <;> rw [hprobe] at ha
      · exact mem_actions_updatePhase ha
      · try dsimp only at ha
        cases hge : semverGe ver latest <;> simp only [hge] at ha
        · exact mem_actions_updatePhase ha
        · simp at ha

/-- C1: every filesystem action of a run targets a path of the form
`dir ++ comps` where `comps` is the entry՚s enclosed relative component
list; that relative path resolves without ever stepping above its root,
and the full joined path resolves to `dir ++ r` — a descendant of the
target directory.  Entries that would escape produce no action at all. -/
theorem extraction_contained (tool : Tool) (dir : List String)
    (env : PipelineEnv) (a : FsAction)
    (ha : a ∈ (process_tool tool dir env).actions) :
    ∃ comps r, a.path = dir ++ comps ∧ resolveComps [] comps = some r ∧
      resolveComps dir.reverse comps = some (dir ++ r) := by
  obtain ⟨comps, hpath, hchk⟩ :=
    extractRun_actions_enclosed dir env.entries a (mem_actions_process_tool ha)
  obtain ⟨r, hr⟩ := enclCheck_resolve comps [] hchk
  refine ⟨comps, r, hpath, hr, ?_⟩
  have h2 := resolveComps_append comps [] r dir.reverse hr
  simpa using h2

theorem extraction_contained_witness :
    (FsAction.write ["pwsh", "pwsh.exe"]) ∈
      (process_tool Tool.powershell ["pwsh"] containEnv).actions ∧
    (∃ comps r, (FsAction.write ["pwsh", "pwsh.exe"]).path = ["pwsh"] ++ comps ∧
      resolveComps [] comps = some r ∧
      resolveComps (["pwsh"] : List String).reverse comps = some (["pwsh"] ++ r)) :=
  ⟨by decide,
   extraction_contained Tool.powershell ["pwsh"] containEnv
     (FsAction.write ["pwsh", "pwsh.exe"]) (by decide)⟩

/-- C10: an archive entry with no safe enclosed name (parent traversal,
absolute path, NUL) is silently skipped: extracting an archive that holds
it among other entries is exactly extracting the archive without it, so
the remaining entries still extract and the loop still completes. -/
theorem malicious_entry_skipped (dir : List String)
    (pre post : List ZipEntry) (bad : ZipEntry)
    (hname : enclosedName bad.name = none) (hread : bad.readOk = true) :
    extractRun dir (pre ++ bad :: post) = extractRun dir (pre ++ post) := by
  induction pre with
  | nil => simp [extractRun, hread, hname]
  | cons e pres ih =>
    simp only [List.cons_append, extractRun, List.append_eq]
    rw [ih]

theorem malicious_entry_skipped_witness :
    enclosedName "../../evil.txt" = none ∧
    extractRun ["d"] [⟨"ok.txt", true, true⟩, ⟨"../../evil.txt", true, true⟩] =
      extractRun ["d"] [⟨"ok.txt", true, true⟩] :=
  ⟨by decide,
   malicious_entry_skipped ["d"] [⟨"ok.txt", true, true⟩] []
     ⟨"../../evil.txt", true, true⟩ (by decide) rfl⟩

end UvSetup
